import Mathlib

/-! Shallow embedding of the coordinate-pair reverser scripts
(`geojson_devutil.py` and `demos/geojson_devutil.py`).

The whole functional surface of the repository is

  pattern = re.compile("(-?[0-9]+\.[0-9]+),\n *(-?[0-9]+\.[0-9]+)")
  text    = re.sub(pattern, r"\2,\n\1", text)

applied once to the full content of one file, which is then rewritten in
place (seek to 0, write, truncate).

Text is modelled as `List Char`.  For this particular pattern, greedy
matching needs no productive backtracking: every backtracking branch would
demand a digit where a non-digit stands.  Matching at a fixed position is
therefore a deterministic function, embedded below. -/

/-- Match `[0-9]+\.[0-9]+` (greedy, as the regex engine does) at the start
of `s`; returns the matched characters and the rest of the input. -/
def digitsDotDigits (s : List Char) : Option (List Char × List Char) :=
  if s.takeWhile Char.isDigit = [] then none
  else
    match s.dropWhile Char.isDigit with
    | [] => none
    | c :: s3 =>
      if c = '.' then
        if s3.takeWhile Char.isDigit = [] then none
        else some (s.takeWhile Char.isDigit ++ '.' :: s3.takeWhile Char.isDigit,
                   s3.dropWhile Char.isDigit)
      else none

/-- Match `-?[0-9]+\.[0-9]+` at the start of `s`.  When `s` starts with `-`
but no number follows, the backtracking alternative without the sign also
fails, since `[0-9]+` cannot consume the `-`; so committing to the sign is
faithful to the regex engine. -/
def matchNumber (s : List Char) : Option (List Char × List Char) :=
  match s with
  | [] => none
  | c :: s1 =>
    if c = '-' then (digitsDotDigits s1).map (fun x => ('-' :: x.1, x.2))
    else digitsDotDigits (c :: s1)

/-- Match the full pattern `(-?[0-9]+\.[0-9]+),\n *(-?[0-9]+\.[0-9]+)` at
the start of `s`; returns the two captured numbers and the rest of the
input.  The ` *` is greedy over spaces only; backtracking out of it would
demand a number starting with a space, so dropping all spaces is faithful. -/
def matchPair (s : List Char) : Option (List Char × List Char × List Char) :=
  match matchNumber s with
  | none => none
  | some (a, r1) =>
    match r1 with
    | c1 :: c2 :: s2 =>
      if c1 = ',' ∧ c2 = '\n' then
        match matchNumber (s2.dropWhile (fun c => c == ' ')) with
        | none => none
        | some (b, r2) => some (a, b, r2)
      else none
    | _ => none

/-- One global pass of `re.sub(pattern, r"\2,\n\1", ·)`: scan left to
right; where the pattern matches, emit the swapped pair and resume right
after the consumed match, otherwise copy one character.  The fuel bounds
the recursion; one unit per consumed character is enough. -/
def subFuel : Nat → List Char → List Char
  | 0, s => s
  | _, [] => []
  | n + 1, c :: rest =>
    match matchPair (c :: rest) with
    | some (a, b, r) => b ++ ',' :: '\n' :: a ++ subFuel n r
    | none => c :: subFuel n rest

/-- `re.sub(pattern, r"\2,\n\1", text)` — the transformation the scripts
apply to the file content. -/
def subText (s : List Char) : List Char := subFuel s.length s

/-- A decimal number as the spec describes it: an optional leading minus
sign, one or more digits, a literal decimal point, and one or more
digits. -/
def DecNum (n : List Char) : Prop :=
  ∃ neg d1 d2, (neg = ([] : List Char) ∨ neg = ['-']) ∧
    d1 ≠ [] ∧ d2 ≠ [] ∧
    (∀ c ∈ d1, Char.isDigit c = true) ∧ (∀ c ∈ d2, Char.isDigit c = true) ∧
    n = neg ++ d1 ++ '.' :: d2

/-- Leftmost-match search, following the spec's description of global
substitution: positions are tried left to right and the first (leftmost)
position where the pattern matches wins.  Returns the text before the
match, the two captured numbers, and the text after the match. -/
def findMatch : List Char → Option (List Char × List Char × List Char × List Char)
  | [] => none
  | c :: rest =>
    match matchPair (c :: rest) with
    | some (a, b, r) => some ([], a, b, r)
    | none =>
      (findMatch rest).map (fun x => (c :: x.1, x.2.1, x.2.2.1, x.2.2.2))

/-- Global substitution as the spec words it: replace the leftmost match by
`B,\nA`, then resume scanning immediately after the consumed match. -/
def subSpecFuel : Nat → List Char → List Char
  | 0, s => s
  | n + 1, s =>
    match findMatch s with
    | none => s
    | some (u, a, b, r) => u ++ b ++ ',' :: '\n' :: a ++ subSpecFuel n r

/-- Spec-side formulation of the global substitution. -/
def subSpec (s : List Char) : List Char := subSpecFuel s.length s

/-- Does `pat` occur as a contiguous substring of `s`? -/
def occursIn (pat : List Char) : List Char → Bool
  | [] => pat.isPrefixOf ([] : List Char)
  | c :: rest => pat.isPrefixOf (c :: rest) || occursIn pat rest

/-- A text-mode file handle: full content plus current position, as the
scripts use it (`open(..., "r+")`). -/
structure Handle where
  content : List Char
  pos : Nat

/-- `sample.read()`: return everything from the current position on and
move the position to the end of the file. -/
def hRead (h : Handle) : List Char × Handle :=
  (h.content.drop h.pos, ⟨h.content, h.content.length⟩)

/-- `sample.seek(n)`. -/
def hSeek (h : Handle) (n : Nat) : Handle := ⟨h.content, n⟩

/-- `sample.write(t)`: overwrite in place starting at the current position
(keeping any tail of the old content that extends past the written text)
and advance the position. -/
def hWrite (h : Handle) (t : List Char) : Handle :=
  ⟨h.content.take h.pos ++ t ++ h.content.drop (h.pos + t.length),
   h.pos + t.length⟩

/-- `sample.truncate()`: cut the content at the current position. -/
def hTruncate (h : Handle) : Handle := ⟨h.content.take h.pos, h.pos⟩

/-- The whole run of a script on a file holding `old`: read all, transform,
seek to 0, write, truncate; returns the final file content. -/
def runFile (old : List Char) : List Char :=
  let h0 : Handle := ⟨old, 0⟩
  let r := hRead h0
  let h1 := hSeek r.2 0
  let h2 := hWrite h1 (subText r.1)
  let h3 := hTruncate h2
  h3.content

/-! ### takeWhile / dropWhile helpers -/

lemma takeWhile_append_all {p : Char → Bool} :
    ∀ (d l : List Char), (∀ c ∈ d, p c = true) →
      (d ++ l).takeWhile p = d ++ l.takeWhile p := by
  intro d
  induction d with
  | nil => intro l _; rfl
  | cons c d ih =>
    intro l hd
    have hc : p c = true := hd c (List.mem_cons_self c d)
    simp only [List.cons_append, List.takeWhile_cons_of_pos hc,
      ih l (fun x hx => hd x (List.mem_cons_of_mem c hx))]

lemma dropWhile_append_all {p : Char → Bool} :
    ∀ (d l : List Char), (∀ c ∈ d, p c = true) →
      (d ++ l).dropWhile p = l.dropWhile p := by
  intro d
  induction d with
  | nil => intro l _; rfl
  | cons c d ih =>
    intro l hd
    have hc : p c = true := hd c (List.mem_cons_self c d)
    simp only [List.cons_append, List.dropWhile_cons_of_pos hc,
      ih l (fun x hx => hd x (List.mem_cons_of_mem c hx))]

lemma dropWhile_id_of_takeWhile_nil {p : Char → Bool} {l : List Char}
    (h : l.takeWhile p = []) : l.dropWhile p = l := by
  conv_rhs => rw [← List.takeWhile_append_dropWhile p l, h]
  simp

/-! ### Decomposition and determinism of the matching functions -/

lemma digitsDotDigits_decomp {s n r : List Char}
    (h : digitsDotDigits s = some (n, r)) :
    ∃ d1 d2, d1 ≠ [] ∧ d2 ≠ [] ∧ (∀ c ∈ d1, Char.isDigit c = true) ∧
      (∀ c ∈ d2, Char.isDigit c = true) ∧ n = d1 ++ '.' :: d2 ∧ s = n ++ r := by
  unfold digitsDotDigits at h
  split at h
  · exact absurd h (by simp)
  next h1 =>
    split at h
    · exact absurd h (by simp)
    next c s3 heq =>
      split at h
      next hdot =>
        subst hdot
        split at h
        · exact absurd h (by simp)
        next h2 =>
          obtain ⟨hn, hr⟩ := Prod.mk.injEq .. ▸ Option.some.inj h
          refine ⟨s.takeWhile Char.isDigit, s3.takeWhile Char.isDigit, h1, h2,
            fun c hc => List.mem_takeWhile_imp hc,
            fun c hc => List.mem_takeWhile_imp hc, hn.symm, ?_⟩
          rw [hn.symm, hr.symm] at *
          have hs : s.takeWhile Char.isDigit ++ s.dropWhile Char.isDigit = s :=
            List.takeWhile_append_dropWhile ..
          have hs3 : s3.takeWhile Char.isDigit ++ s3.dropWhile Char.isDigit = s3 :=
            List.takeWhile_append_dropWhile ..
          rw [← hn, ← hr]
          calc s = s.takeWhile Char.isDigit ++ s.dropWhile Char.isDigit := hs.symm
            _ = s.takeWhile Char.isDigit ++ '.' :: s3 := by rw [heq]
            _ = s.takeWhile Char.isDigit ++ '.' ::
                  (s3.takeWhile Char.isDigit ++ s3.dropWhile Char.isDigit) := by rw [hs3]
            _ = (s.takeWhile Char.isDigit ++ '.' :: s3.takeWhile Char.isDigit) ++
                  s3.dropWhile Char.isDigit := by simp
      · exact absurd h (by simp)

lemma digitsDotDigits_exact {d1 d2 r : List Char}
    (h1 : d1 ≠ []) (h2 : d2 ≠ [])
    (hd1 : ∀ c ∈ d1, Char.isDigit c = true) (hd2 : ∀ c ∈ d2, Char.isDigit c = true)
    (hr : r.takeWhile Char.isDigit = []) :
    digitsDotDigits (d1 ++ '.' :: (d2 ++ r)) = some (d1 ++ '.' :: d2, r) := by
  have hdot : ('.' : Char).isDigit = false := by decide
  have ht1 : (d1 ++ '.' :: (d2 ++ r)).takeWhile Char.isDigit = d1 := by
    rw [takeWhile_append_all _ _ hd1, List.takeWhile_cons_of_neg (by simp [hdot])]
    simp
  have hw1 : (d1 ++ '.' :: (d2 ++ r)).dropWhile Char.isDigit = '.' :: (d2 ++ r) := by
    rw [dropWhile_append_all _ _ hd1, List.dropWhile_cons_of_neg (by simp [hdot])]
  have ht2 : (d2 ++ r).takeWhile Char.isDigit = d2 ++ [] := by
    rw [takeWhile_append_all _ _ hd2, hr]
  have hw2 : (d2 ++ r).dropWhile Char.isDigit = r := by
    rw [dropWhile_append_all _ _ hd2, dropWhile_id_of_takeWhile_nil hr]
  unfold digitsDotDigits
  rw [ht1, hw1, if_neg h1]
  split
  next heq => exact absurd heq (by simp)
  next c s3 heq =>
    obtain ⟨hc, hs3⟩ := List.cons.inj heq
    subst hc
    subst hs3
    rw [if_pos rfl, ht2, hw2]
    rw [if_neg (by simpa using h2)]
    simp

lemma takeWhile_dropWhile_nil {p : Char → Bool} :
    ∀ l : List Char, (l.dropWhile p).takeWhile p = [] := by
  intro l
  induction l with
  | nil => rfl
  | cons a l ih =>
    by_cases ha : p a
    · rw [List.dropWhile_cons_of_pos ha]; exact ih
    · rw [List.dropWhile_cons_of_neg ha, List.takeWhile_cons_of_neg ha]

lemma decNum_head {n : List Char} (h : DecNum n) :
    ∃ c t, n = c :: t ∧ (c = '-' ∨ Char.isDigit c = true) := by
  obtain ⟨neg, d1, d2, hneg, h1, _, hd1, _, rfl⟩ := h
  rcases hneg with rfl | rfl
  · obtain ⟨c, t, rfl⟩ : ∃ c t, d1 = c :: t := by
      cases d1 with
      | nil => exact absurd rfl h1
      | cons c t => exact ⟨c, t, rfl⟩
    exact ⟨c, t ++ '.' :: d2, by simp, Or.inr (hd1 c (List.mem_cons_self ..))⟩
  · exact ⟨'-', d1 ++ '.' :: d2, by simp, Or.inl rfl⟩

lemma decNum_length_pos {n : List Char} (h : DecNum n) : 1 ≤ n.length := by
  obtain ⟨c, t, rfl, _⟩ := decNum_head h
  simp

lemma matchNumber_exact {n r : List Char} (hn : DecNum n)
    (hr : r.takeWhile Char.isDigit = []) :
    matchNumber (n ++ r) = some (n, r) := by
  obtain ⟨neg, d1, d2, hneg, h1, h2, hd1, hd2, rfl⟩ := hn
  rcases hneg with rfl | rfl
  · simp only [List.nil_append]
    obtain ⟨c, d1t, rfl⟩ : ∃ c t, d1 = c :: t := by
      cases d1 with
      | nil => exact absurd rfl h1
      | cons c t => exact ⟨c, t, rfl⟩
    have hc : Char.isDigit c = true := hd1 c (List.mem_cons_self ..)
    have hcne : ¬ c = '-' := by
      intro hcc
      rw [hcc] at hc
      exact absurd hc (by decide)
    have heq : (c :: d1t ++ '.' :: d2) ++ r = c :: (d1t ++ '.' :: (d2 ++ r)) := by
      simp
    rw [heq]
    simp only [matchNumber]
    rw [if_neg hcne]
    have hdd := digitsDotDigits_exact (show (c :: d1t : List Char) ≠ [] by simp) h2 hd1 hd2 hr
    simpa using hdd
  · have heq : (['-'] ++ d1 ++ '.' :: d2) ++ r = '-' :: (d1 ++ '.' :: (d2 ++ r)) := by
      simp
    rw [heq]
    simp [matchNumber, digitsDotDigits_exact h1 h2 hd1 hd2 hr]

lemma matchNumber_decomp {s n r : List Char} (h : matchNumber s = some (n, r)) :
    DecNum n ∧ s = n ++ r := by
  cases s with
  | nil => exact absurd h (by simp [matchNumber])
  | cons c s1 =>
    simp only [matchNumber] at h
    split at h
    next hc =>
      subst hc
      cases hd : digitsDotDigits s1 with
      | none => rw [hd] at h; exact absurd h (by simp)
      | some x =>
        obtain ⟨m, r'⟩ := x
        rw [hd] at h
        have h' : ('-' :: m, r') = (n, r) := by simpa using h
        obtain ⟨hn, hr⟩ := Prod.mk.injEq .. ▸ h'
        obtain ⟨d1, d2, h1, h2, hd1, hd2, hm, hs1⟩ := digitsDotDigits_decomp hd
        constructor
        · exact ⟨['-'], d1, d2, Or.inr rfl, h1, h2, hd1, hd2, by rw [← hn, hm]; simp⟩
        · rw [← hn, ← hr, hs1]
          rfl
    next hc =>
      obtain ⟨d1, d2, h1, h2, hd1, hd2, hm, hs⟩ := digitsDotDigits_decomp h
      exact ⟨⟨[], d1, d2, Or.inl rfl, h1, h2, hd1, hd2, by rw [hm]; simp⟩, hs⟩

lemma matchNumber_append_isSome {b : List Char} (hb : DecNum b) (r : List Char) :
    ∃ n t, matchNumber (b ++ r) = some (n, t) := by
  obtain ⟨neg, d1, d2, hneg, h1, h2, hd1, hd2, rfl⟩ := hb
  refine ⟨neg ++ d1 ++ '.' :: (d2 ++ r).takeWhile Char.isDigit,
    (d2 ++ r).dropWhile Char.isDigit, ?_⟩
  have h2' : (d2 ++ r).takeWhile Char.isDigit ≠ [] := by
    obtain ⟨c, t, rfl⟩ : ∃ c t, d2 = c :: t := by
      cases d2 with
      | nil => exact absurd rfl h2
      | cons c t => exact ⟨c, t, rfl⟩
    rw [List.cons_append,
      List.takeWhile_cons_of_pos (hd2 c (List.mem_cons_self ..))]
    simp
  have hd2' : ∀ c ∈ (d2 ++ r).takeWhile Char.isDigit, Char.isDigit c = true :=
    fun c hc => List.mem_takeWhile_imp hc
  have hr' : ((d2 ++ r).dropWhile Char.isDigit).takeWhile Char.isDigit = [] :=
    takeWhile_dropWhile_nil ..
  have heq : (neg ++ d1 ++ '.' :: d2) ++ r =
      (neg ++ d1 ++ '.' :: (d2 ++ r).takeWhile Char.isDigit) ++
        (d2 ++ r).dropWhile Char.isDigit := by
    simp only [List.append_assoc, List.cons_append]
    rw [List.takeWhile_append_dropWhile]
  rw [heq]
  exact matchNumber_exact ⟨neg, d1, _, hneg, h1, h2', hd1, hd2', rfl⟩ hr'

lemma matchPair_decomp {s a b r : List Char} (h : matchPair s = some (a, b, r)) :
    ∃ sp, DecNum a ∧ DecNum b ∧ (∀ c ∈ sp, c = ' ') ∧
      s = a ++ ',' :: '\n' :: (sp ++ (b ++ r)) := by
  unfold matchPair at h
  split at h
  · exact absurd h (by simp)
  next a' r1 hm =>
    split at h
    pick_goal 2
    · exact absurd h (by simp)
    next c1 c2 s2 =>
      split at h
      pick_goal 2
      · exact absurd h (by simp)
      next hsep =>
        obtain ⟨rfl, rfl⟩ := hsep
        split at h
        · exact absurd h (by simp)
        next b' r2 hm2 =>
          have h' : (a', b', r2) = (a, b, r) := Option.some.inj h
          obtain ⟨ha', hb', hr'⟩ : a' = a ∧ b' = b ∧ r2 = r := by
            simpa using h'
          subst ha'; subst hb'; subst hr'
          obtain ⟨hda, hsa⟩ := matchNumber_decomp hm
          obtain ⟨hdb, hsb⟩ := matchNumber_decomp hm2
          refine ⟨s2.takeWhile (fun c => c == ' '), hda, hdb, ?_, ?_⟩
          · intro c hc
            have := List.mem_takeWhile_imp hc
            simpa using this
          · have hsplit : s2 = s2.takeWhile (fun c => c == ' ') ++ (b' ++ r2) := by
              rw [← hsb, List.takeWhile_append_dropWhile]
            rw [hsa]
            conv_lhs => rw [hsplit]

lemma dropWhile_spaces_append {sp rest : List Char} (hsp : ∀ c ∈ sp, c = ' ')
    {b : List Char} (hb : DecNum b) :
    ((sp ++ (b ++ rest)).dropWhile (fun c => c == ' ')) = b ++ rest := by
  rw [dropWhile_append_all _ _ (fun c hc => by simp [hsp c hc])]
  obtain ⟨c, t, rfl, hc⟩ := decNum_head hb
  have hne : ¬ ((c == ' ') = true) := by
    rcases hc with rfl | hdig
    · decide
    · intro hcsp
      have hce : c = ' ' := by simpa using hcsp
      rw [hce] at hdig
      exact absurd hdig (by decide)
  rw [List.cons_append]
  exact List.dropWhile_cons_of_neg hne

lemma matchPair_exact {a b sp r : List Char}
    (ha : DecNum a) (hb : DecNum b) (hsp : ∀ c ∈ sp, c = ' ')
    (hr : r.takeWhile Char.isDigit = []) :
    matchPair (a ++ ',' :: '\n' :: (sp ++ (b ++ r))) = some (a, b, r) := by
  have hcomma : (',' :: '\n' :: (sp ++ (b ++ r))).takeWhile Char.isDigit = [] :=
    List.takeWhile_cons_of_neg (by decide)
  have hm1 := matchNumber_exact ha hcomma
  unfold matchPair
  rw [hm1]
  simp [dropWhile_spaces_append hsp hb, matchNumber_exact hb hr]

lemma matchPair_append_isSome {a b sp : List Char} (r : List Char)
    (ha : DecNum a) (hb : DecNum b) (hsp : ∀ c ∈ sp, c = ' ') :
    ∃ b' r', matchPair (a ++ ',' :: '\n' :: (sp ++ (b ++ r))) = some (a, b', r') := by
  have hcomma : (',' :: '\n' :: (sp ++ (b ++ r))).takeWhile Char.isDigit = [] :=
    List.takeWhile_cons_of_neg (by decide)
  have hm1 := matchNumber_exact ha hcomma
  obtain ⟨n, t, hm2⟩ := matchNumber_append_isSome hb r
  refine ⟨n, t, ?_⟩
  unfold matchPair
  rw [hm1]
  simp [dropWhile_spaces_append hsp hb, hm2]

lemma matchPair_rest_lt {s a b r : List Char} (h : matchPair s = some (a, b, r)) :
    r.length + 4 ≤ s.length := by
  obtain ⟨sp, hda, hdb, _, hs⟩ := matchPair_decomp h
  have la := decNum_length_pos hda
  have lb := decNum_length_pos hdb
  rw [hs]
  simp only [List.length_append, List.length_cons]
  omega

/-! ### Fuel irrelevance and unfolding laws for the substitution -/

lemma subFuel_of_le : ∀ n m : Nat, ∀ x : List Char, x.length ≤ n → x.length ≤ m →
    subFuel n x = subFuel m x := by
  intro n
  induction n with
  | zero =>
    intro m x hn _
    have hx : x = [] := List.eq_nil_of_length_eq_zero (Nat.le_zero.mp hn)
    subst hx
    cases m <;> rfl
  | succ n ih =>
    intro m x hn hm
    cases x with
    | nil => cases m <;> rfl
    | cons c rest =>
      obtain ⟨m', rfl⟩ : ∃ k, m = k + 1 := by
        refine ⟨m - 1, ?_⟩
        have : 1 ≤ m := le_trans (by simp) hm
        omega
      cases hp : matchPair (c :: rest) with
      | some t =>
        obtain ⟨a, b, r⟩ := t
        have hlt := matchPair_rest_lt hp
        simp only [List.length_cons] at hn hm hlt
        simp only [subFuel, hp]
        rw [ih m' r (by omega) (by omega)]
      | none =>
        simp only [List.length_cons] at hn hm
        simp only [subFuel, hp]
        rw [ih m' rest (by omega) (by omega)]

lemma subText_match {c : Char} {rest a b r : List Char}
    (h : matchPair (c :: rest) = some (a, b, r)) :
    subText (c :: rest) = b ++ ',' :: '\n' :: a ++ subText r := by
  have hlt := matchPair_rest_lt h
  simp only [List.length_cons] at hlt
  unfold subText
  simp only [List.length_cons, subFuel, h]
  rw [subFuel_of_le rest.length r.length r (by omega) (le_refl _)]

lemma subText_nomatch {c : Char} {rest : List Char}
    (h : matchPair (c :: rest) = none) :
    subText (c :: rest) = c :: subText rest := by
  unfold subText
  simp only [List.length_cons, subFuel, h]

/-! ### findMatch: decomposition and unfolding -/

lemma findMatch_decomp : ∀ {s u a b r : List Char},
    findMatch s = some (u, a, b, r) →
    ∃ t, s = u ++ t ∧ matchPair t = some (a, b, r) := by
  intro s
  induction s with
  | nil => intro u a b r h; exact absurd h (by simp [findMatch])
  | cons c rest ih =>
    intro u a b r h
    simp only [findMatch] at h
    cases hp : matchPair (c :: rest) with
    | some t =>
      obtain ⟨a', b', r'⟩ := t
      rw [hp] at h
      obtain ⟨hu, ha, hb, hr⟩ : [] = u ∧ a' = a ∧ b' = b ∧ r' = r := by
        simpa using h
      subst hu; subst ha; subst hb; subst hr
      exact ⟨c :: rest, by simp, hp⟩
    | none =>
      rw [hp] at h
      cases hf : findMatch rest with
      | none => rw [hf] at h; exact absurd h (by simp)
      | some x =>
        obtain ⟨u', a', b', r'⟩ := x
        rw [hf] at h
        obtain ⟨hu, ha, hb, hr⟩ : c :: u' = u ∧ a' = a ∧ b' = b ∧ r' = r := by
          simpa using h
        subst hu; subst ha; subst hb; subst hr
        obtain ⟨t, ht, hmp⟩ := ih hf
        exact ⟨t, by rw [List.cons_append, ← ht], hmp⟩

lemma findMatch_rest_lt {s u a b r : List Char}
    (h : findMatch s = some (u, a, b, r)) : r.length + 4 ≤ s.length := by
  obtain ⟨t, rfl, hmp⟩ := findMatch_decomp h
  have := matchPair_rest_lt hmp
  simp only [List.length_append]
  omega

lemma subSpecFuel_of_le : ∀ n m : Nat, ∀ x : List Char, x.length ≤ n → x.length ≤ m →
    subSpecFuel n x = subSpecFuel m x := by
  intro n
  induction n with
  | zero =>
    intro m x hn _
    have hx : x = [] := List.eq_nil_of_length_eq_zero (Nat.le_zero.mp hn)
    subst hx
    cases m with
    | zero => rfl
    | succ m => simp [subSpecFuel, findMatch]
  | succ n ih =>
    intro m x hn hm
    cases hf : findMatch x with
    | none =>
      cases m with
      | zero =>
        have hx : x = [] := List.eq_nil_of_length_eq_zero (Nat.le_zero.mp hm)
        subst hx
        rfl
      | succ m => simp only [subSpecFuel, hf]
    | some t =>
      obtain ⟨u, a, b, r⟩ := t
      have hlt := findMatch_rest_lt hf
      obtain ⟨m', rfl⟩ : ∃ k, m = k + 1 := ⟨m - 1, by omega⟩
      simp only [subSpecFuel, hf]
      rw [ih m' r (by omega) (by omega)]

lemma subSpec_of_none {s : List Char} (h : findMatch s = none) : subSpec s = s := by
  unfold subSpec
  cases hl : s.length with
  | zero => rfl
  | succ k => simp only [subSpecFuel, h]

lemma subSpec_of_some {s u a b r : List Char} (h : findMatch s = some (u, a, b, r)) :
    subSpec s = u ++ b ++ ',' :: '\n' :: a ++ subSpec r := by
  have hlt := findMatch_rest_lt h
  unfold subSpec
  obtain ⟨k, hl⟩ : ∃ k, s.length = k + 1 := ⟨s.length - 1, by omega⟩
  rw [hl]
  simp only [subSpecFuel, h]
  rw [subSpecFuel_of_le k r.length r (by omega) (le_refl _)]

/-- The scanning implementation processes the leftmost match exactly as the
spec's find-replace-resume formulation does. -/
lemma subText_findMatch : ∀ {x u a b r : List Char},
    findMatch x = some (u, a, b, r) →
    subText x = u ++ b ++ ',' :: '\n' :: a ++ subText r := by
  intro x
  induction x with
  | nil => intro u a b r h; exact absurd h (by simp [findMatch])
  | cons c rest ih =>
    intro u a b r h
    simp only [findMatch] at h
    cases hp : matchPair (c :: rest) with
    | some t =>
      obtain ⟨a', b', r'⟩ := t
      rw [hp] at h
      obtain ⟨hu, ha, hb, hr⟩ : [] = u ∧ a' = a ∧ b' = b ∧ r' = r := by
        simpa using h
      subst hu; subst ha; subst hb; subst hr
      simpa using subText_match hp
    | none =>
      rw [hp] at h
      cases hf : findMatch rest with
      | none => rw [hf] at h; exact absurd h (by simp)
      | some x' =>
        obtain ⟨u', a', b', r'⟩ := x'
        rw [hf] at h
        obtain ⟨hu, ha, hb, hr⟩ : c :: u' = u ∧ a' = a ∧ b' = b ∧ r' = r := by
          simpa using h
        subst hu; subst ha; subst hb; subst hr
        rw [subText_nomatch hp, ih hf]
        simp

lemma subText_of_findMatch_none : ∀ {x : List Char},
    findMatch x = none → subText x = x := by
  intro x
  induction x with
  | nil => intro _; rfl
  | cons c rest ih =>
    intro h
    simp only [findMatch] at h
    cases hp : matchPair (c :: rest) with
    | some t => rw [hp] at h; exact absurd h (by simp)
    | none =>
      rw [hp] at h
      have hf : findMatch rest = none := by
        cases hf : findMatch rest with
        | none => rfl
        | some x' => rw [hf] at h; exact absurd h (by simp)
      rw [subText_nomatch hp, ih hf]

/-! ### No match can start inside a digit-free prefix -/

lemma digitsDotDigits_none_head {c : Char} {t : List Char}
    (hc : Char.isDigit c = false) : digitsDotDigits (c :: t) = none := by
  unfold digitsDotDigits
  rw [if_pos (show (c :: t).takeWhile Char.isDigit = [] from
    List.takeWhile_cons_of_neg (by simp [hc]))]

lemma matchPair_none_of_matchNumber_none {s : List Char}
    (h : matchNumber s = none) : matchPair s = none := by
  unfold matchPair
  rw [h]

lemma matchNumber_none_head {c : Char} {t : List Char}
    (hc : Char.isDigit c = false) (hcm : ¬ c = '-') : matchNumber (c :: t) = none := by
  simp only [matchNumber]
  rw [if_neg hcm, digitsDotDigits_none_head hc]

lemma matchNumber_none_dash {t : List Char} (h : digitsDotDigits t = none) :
    matchNumber ('-' :: t) = none := by
  simp [matchNumber, h]

lemma findMatch_prepend : ∀ {u t a b r : List Char},
    (∀ c ∈ u, Char.isDigit c = false) → u.getLast? ≠ some '-' →
    matchPair t = some (a, b, r) →
    findMatch (u ++ t) = some (u, a, b, r) := by
  intro u
  induction u with
  | nil =>
    intro t a b r _ _ hmp
    obtain ⟨c, rest, rfl⟩ : ∃ c rest, t = c :: rest := by
      cases t with
      | nil => exact absurd hmp (by simp [matchPair, matchNumber])
      | cons c rest => exact ⟨c, rest, rfl⟩
    simp [findMatch, hmp]
  | cons c u' ih =>
    intro t a b r hu1 hu2 hmp
    have hcd : Char.isDigit c = false := hu1 c (List.mem_cons_self ..)
    have hnone : matchPair (c :: (u' ++ t)) = none := by
      by_cases hcm : c = '-'
      · subst hcm
        cases u' with
        | nil =>
          exfalso
          apply hu2
          simp
        | cons c2 u'' =>
          have hc2 : Char.isDigit c2 = false := hu1 c2 (by simp)
          exact matchPair_none_of_matchNumber_none
            (matchNumber_none_dash (digitsDotDigits_none_head hc2))
      · exact matchPair_none_of_matchNumber_none (matchNumber_none_head hcd hcm)
    rw [List.cons_append]
    simp only [findMatch, hnone]
    have hu1' : ∀ x ∈ u', Char.isDigit x = false :=
      fun x hx => hu1 x (List.mem_cons_of_mem c hx)
    have hu2' : u'.getLast? ≠ some '-' := by
      cases u' with
      | nil => simp
      | cons d u'' =>
        intro hl
        exact hu2 (by rw [List.getLast?_cons_cons]; exact hl)
    rw [ih hu1' hu2' hmp]
    rfl

/-- Frame decomposition: a digit-free prefix `u` (not ending in a minus
sign) is copied verbatim, the matched pair is swapped (its leading spaces
dropped), and substitution continues on the rest. -/
lemma subText_frame {u a sp b v : List Char}
    (ha : DecNum a) (hb : DecNum b) (hsp : ∀ c ∈ sp, c = ' ')
    (hu1 : ∀ c ∈ u, Char.isDigit c = false) (hu2 : u.getLast? ≠ some '-')
    (hv : v.takeWhile Char.isDigit = []) :
    subText (u ++ (a ++ ',' :: '\n' :: (sp ++ (b ++ v)))) =
      u ++ (b ++ ',' :: '\n' :: (a ++ subText v)) := by
  have hmp := matchPair_exact ha hb hsp hv
  have hf := findMatch_prepend hu1 hu2 hmp
  rw [subText_findMatch hf]
  simp [List.append_assoc]

/-! ### The whole-file run -/

lemma runFile_eq_subText (old : List Char) : runFile old = subText old := by
  unfold runFile hRead hSeek hWrite hTruncate
  simp [List.take_left]

/-! ### No match anywhere: identity -/

lemma subText_id_of_no_match : ∀ n (x : List Char), x.length ≤ n →
    (∀ i, i < x.length → matchPair (x.drop i) = none) → subText x = x := by
  intro n
  induction n with
  | zero =>
    intro x hn _
    have hx : x = [] := List.eq_nil_of_length_eq_zero (Nat.le_zero.mp hn)
    subst hx
    rfl
  | succ n ih =>
    intro x hn hno
    cases x with
    | nil => rfl
    | cons c rest =>
      have h0 : matchPair (c :: rest) = none := by
        have := hno 0 (by simp)
        simpa using this
      rw [subText_nomatch h0]
      rw [ih rest (by simp only [List.length_cons] at hn; omega) ?_]
      intro i hi
      have := hno (i + 1) (by simp only [List.length_cons]; omega)
      simpa [List.drop_succ_cons] using this

/-! ### Character conservation -/

lemma subText_multiset : ∀ n (x : List Char), x.length ≤ n →
    ∃ k, (subText x : Multiset Char) + Multiset.replicate k ' ' = (x : Multiset Char) := by
  intro n
  induction n with
  | zero =>
    intro x hn
    have hx : x = [] := List.eq_nil_of_length_eq_zero (Nat.le_zero.mp hn)
    subst hx
    exact ⟨0, by simp [subText, subFuel]⟩
  | succ n ih =>
    intro x hn
    cases x with
    | nil => exact ⟨0, by simp [subText, subFuel]⟩
    | cons c rest =>
      cases hp : matchPair (c :: rest) with
      | none =>
        obtain ⟨k, hk⟩ := ih rest (by simp only [List.length_cons] at hn; omega)
        refine ⟨k, ?_⟩
        rw [subText_nomatch hp]
        calc (↑(c :: subText rest) : Multiset Char) + Multiset.replicate k ' '
            = (c ::ₘ (↑(subText rest) : Multiset Char)) + Multiset.replicate k ' ' := by
              rw [Multiset.cons_coe]
          _ = c ::ₘ ((↑(subText rest) : Multiset Char) + Multiset.replicate k ' ') := by
              rw [Multiset.cons_add]
          _ = c ::ₘ (↑rest : Multiset Char) := by rw [hk]
          _ = (↑(c :: rest) : Multiset Char) := Multiset.cons_coe ..
      | some t =>
        obtain ⟨a, b, r⟩ := t
        have hlt := matchPair_rest_lt hp
        obtain ⟨sp, hda, hdb, hsp, hs⟩ := matchPair_decomp hp
        obtain ⟨m, hm⟩ : ∃ m, sp = List.replicate m ' ' :=
          ⟨sp.length, List.eq_replicate_of_mem hsp⟩
        subst hm
        obtain ⟨k, hk⟩ := ih r (by simp only [List.length_cons] at hn hlt; omega)
        refine ⟨k + m, ?_⟩
        rw [subText_match hp]
        conv_rhs => rw [hs]
        simp only [← Multiset.coe_add, ← Multiset.cons_coe, ← Multiset.singleton_add,
          Multiset.coe_replicate, Multiset.replicate_add]
        rw [← hk]
        abel

/-! ### The claims -/

/-- C1: For every input text, the transformation performed by the scanning
substitution equals the spec's formulation of global regex substitution:
repeatedly replace the leftmost match of the pattern by `B,\nA` (comma and
newline preserved, leading spaces before B dropped), resuming immediately
after each consumed match, so multiple independent pairs in one document
are each swapped, left to right. -/
theorem c1_leftmost_global_substitution : ∀ x : List Char, subText x = subSpec x := by
  have aux : ∀ n (x : List Char), x.length ≤ n → subText x = subSpec x := by
    intro n
    induction n with
    | zero =>
      intro x hn
      have hx : x = [] := List.eq_nil_of_length_eq_zero (Nat.le_zero.mp hn)
      subst hx
      rfl
    | succ n ih =>
      intro x hn
      cases hf : findMatch x with
      | none => rw [subText_of_findMatch_none hf, subSpec_of_none hf]
      | some t =>
        obtain ⟨u, a, b, r⟩ := t
        have hlt := findMatch_rest_lt hf
        rw [subText_findMatch hf, subSpec_of_some hf, ih r (by omega)]
  exact fun x => aux x.length x (le_refl _)

/-- C2: The pattern matches at a position exactly when the text there
starts with a decimal number (optional leading minus, one or more digits,
a literal dot, one or more digits), then a comma, one newline, zero or
more spaces, and a second such decimal number; any other separator (a tab,
say) or malformed number prevents the match. -/
theorem c2_pattern_shape (s : List Char) :
    (matchPair s).isSome = true ↔
      ∃ a b sp r, DecNum a ∧ DecNum b ∧ (∀ c ∈ sp, c = ' ') ∧
        s = a ++ ',' :: '\n' :: (sp ++ (b ++ r)) := by
  constructor
  · intro h
    cases hp : matchPair s with
    | none => rw [hp] at h; simp at h
    | some t =>
      obtain ⟨a, b, r⟩ := t
      obtain ⟨sp, hda, hdb, hsp, hs⟩ := matchPair_decomp hp
      exact ⟨a, b, sp, r, hda, hdb, hsp, hs⟩
  · rintro ⟨a, b, sp, r, hda, hdb, hsp, rfl⟩
    obtain ⟨b', r', h⟩ := matchPair_append_isSome r hda hdb hsp
    rw [h]
    rfl

/-- C3: If no position of the text matches the pattern, the transformation
returns the text unchanged, and a whole run on a file holding that text
rewrites the file with content identical to the original. -/
theorem c3_nomatch_identity (x : List Char)
    (h : ∀ i, i < x.length → matchPair (x.drop i) = none) :
    subText x = x ∧ runFile x = x := by
  have h1 := subText_id_of_no_match x.length x (le_refl _) h
  exact ⟨h1, by rw [runFile_eq_subText, h1]⟩

/-- Witness for C3 at a concrete match-free text. -/
theorem c3_nomatch_identity_witness :
    subText "hello".data = "hello".data ∧ runFile "hello".data = "hello".data :=
  c3_nomatch_identity "hello".data (by decide)

/-- C4 counterexample: a text with no space characters at all — so no
leading-space normalization can differ between the two passes — on which
applying the transformation twice does not return the original: the first
pass glues "1.2" onto "5.6", and the second pass pairs "25.6" with "-3.4". -/
theorem c4_roundtrip_counterexample :
    (∀ c ∈ "1.2-3.4,\n5.6".data, ¬ c = ' ') ∧
    subText "1.2-3.4,\n5.6".data = "1.25.6,\n-3.4".data ∧
    subText "1.25.6,\n-3.4".data = "1.-3.4,\n25.6".data ∧
    subText (subText "1.2-3.4,\n5.6".data) ≠ "1.2-3.4,\n5.6".data := by
  decide

/-- C4 amended: the even-number-of-passes round trip holds for a text that
is exactly one coordinate pair: two passes send `A,\n<spaces>B` to `A,\nB`;
in particular with no leading spaces the double application is the
identity. -/
theorem c4_roundtrip_amended (a b sp : List Char)
    (ha : DecNum a) (hb : DecNum b) (hsp : ∀ c ∈ sp, c = ' ') :
    subText (subText (a ++ ',' :: '\n' :: (sp ++ b))) = a ++ ',' :: '\n' :: b := by
  have hnil : subText [] = [] := rfl
  have h1 := subText_frame ha hb hsp
    (show ∀ c ∈ ([] : List Char), Char.isDigit c = false by simp)
    (show ([] : List Char).getLast? ≠ some '-' by simp)
    (show ([] : List Char).takeWhile Char.isDigit = [] from rfl)
  have h2 := subText_frame hb ha
    (show ∀ c ∈ ([] : List Char), c = ' ' by simp)
    (show ∀ c ∈ ([] : List Char), Char.isDigit c = false by simp)
    (show ([] : List Char).getLast? ≠ some '-' by simp)
    (show ([] : List Char).takeWhile Char.isDigit = [] from rfl)
  simp only [List.nil_append, List.append_nil, hnil] at h1 h2
  rw [h1, h2]

/-- Witness for the amended C4 at a concrete pair with two leading spaces. -/
theorem c4_roundtrip_amended_witness :
    subText (subText ("1.2".data ++ ',' :: '\n' :: ([' ', ' '] ++ "-3.4".data))) =
      "1.2".data ++ ',' :: '\n' :: "-3.4".data :=
  c4_roundtrip_amended "1.2".data "-3.4".data [' ', ' ']
    ⟨[], ['1'], ['2'], Or.inl rfl, by decide, by decide, by decide, by decide, rfl⟩
    ⟨['-'], ['3'], ['4'], Or.inr rfl, by decide, by decide, by decide, by decide, rfl⟩
    (by decide)

/-- C5: Substitution rewrites only the matched spans.  When the leftmost
match decomposes the text as prefix, matched span `A ,\n<spaces> B`, and
rest, every character of the prefix is reproduced verbatim, the matched
span becomes `B,\nA`, and only the rest is processed further; so in
"oijf43.435093,\n-9043.90345jkkh" the surrounding "oijf" and "jkkh" are
untouched while the embedded pair is swapped. -/
theorem c5_frame_only_matched_spans : ∀ x u a b r : List Char,
    findMatch x = some (u, a, b, r) →
    (∃ sp, (∀ c ∈ sp, c = ' ') ∧
      x = u ++ (a ++ ',' :: '\n' :: (sp ++ (b ++ r)))) ∧
    subText x = u ++ b ++ ',' :: '\n' :: a ++ subText r := by
  intro x u a b r h
  constructor
  · obtain ⟨t, rfl, hmp⟩ := findMatch_decomp h
    obtain ⟨sp, hda, hdb, hsp, hts⟩ := matchPair_decomp hmp
    exact ⟨sp, hsp, by rw [hts]⟩
  · exact subText_findMatch h

/-- Witness for C5 at the spec's concrete example text. -/
theorem c5_frame_witness :
    (∃ sp, (∀ c ∈ sp, c = ' ') ∧
      "oijf43.435093,\n-9043.90345jkkh".data = "oijf".data ++
        ("43.435093".data ++ ',' :: '\n' ::
          (sp ++ ("-9043.90345".data ++ "jkkh".data)))) ∧
    subText "oijf43.435093,\n-9043.90345jkkh".data =
      "oijf".data ++ "-9043.90345".data ++ ',' :: '\n' :: "43.435093".data ++
        subText "jkkh".data :=
  c5_frame_only_matched_spans "oijf43.435093,\n-9043.90345jkkh".data
    "oijf".data "43.435093".data "-9043.90345".data "jkkh".data (by decide)

/-- C6 counterexample: "11.2,\n3.4" contains the substring "1.2,\n3.4",
whose two numbers are well-formed decimals, yet the output "3.4,\n11.2"
does not contain "3.4,\n1.2" anywhere: the leftmost match starts one
character earlier and captures "11.2", not "1.2". -/
theorem c6_contains_counterexample :
    occursIn "1.2,\n3.4".data "11.2,\n3.4".data = true ∧
    DecNum "1.2".data ∧ DecNum "3.4".data ∧
    subText "11.2,\n3.4".data = "3.4,\n11.2".data ∧
    occursIn "3.4,\n1.2".data (subText "11.2,\n3.4".data) = false :=
  ⟨by decide,
   ⟨[], ['1'], ['2'], Or.inl rfl, by decide, by decide, by decide, by decide, rfl⟩,
   ⟨[], ['3'], ['4'], Or.inl rfl, by decide, by decide, by decide, by decide, rfl⟩,
   by decide, by decide⟩

/-- C6 amended: the guarantee holds once the occurrence is delimited: if
the text is `u + A + "," + newline + spaces + B + v` with A and B
well-formed decimal numbers, u containing no digit and not ending in a
minus sign, and v not beginning with a digit, then the output is exactly
`u + B + "," + newline + A + transform(v)`: it contains `B,\nA` at the
corresponding position, the leading spaces before B removed.  Without
those boundary conditions the claim fails (see the counterexample). -/
theorem c6_contains_amended (u a sp b v : List Char)
    (ha : DecNum a) (hb : DecNum b) (hsp : ∀ c ∈ sp, c = ' ')
    (hu1 : ∀ c ∈ u, Char.isDigit c = false) (hu2 : u.getLast? ≠ some '-')
    (hv : v.takeWhile Char.isDigit = []) :
    subText (u ++ (a ++ ',' :: '\n' :: (sp ++ (b ++ v)))) =
      u ++ (b ++ ',' :: '\n' :: (a ++ subText v)) :=
  subText_frame ha hb hsp hu1 hu2 hv

/-- Witness for the amended C6 at a concrete delimited occurrence. -/
theorem c6_contains_amended_witness :
    subText ("xy".data ++ ("1.2".data ++ ',' :: '\n' ::
        ([' '] ++ ("3.4".data ++ "z9".data)))) =
      "xy".data ++ ("3.4".data ++ ',' :: '\n' :: ("1.2".data ++ subText "z9".data)) :=
  c6_contains_amended "xy".data "1.2".data [' '] "3.4".data "z9".data
    ⟨[], ['1'], ['2'], Or.inl rfl, by decide, by decide, by decide, by decide, rfl⟩
    ⟨[], ['3'], ['4'], Or.inl rfl, by decide, by decide, by decide, by decide, rfl⟩
    (by decide) (by decide) (by decide) (by decide)

/-- C7: After a run, the file's content is exactly the transformed text and
nothing else: the handle seeks to the start, overwrites in place, and the
final truncate cuts any residual tail of the old content, so this holds
even when the transformed text is shorter than the original. -/
theorem c7_truncate_write (old : List Char) : runFile old = subText old :=
  runFile_eq_subText old

/-- C8: Concrete case: "12.34,\n  -56.78" becomes "-56.78,\n12.34" —
number B, comma, newline, number A, with no leading spaces reinserted. -/
theorem c8_concrete_swap :
    subText "12.34,\n  -56.78".data = "-56.78,\n12.34".data := by decide

/-- C9: The diagnostic variant's printed expression matches the pattern
anchored at the start of "oijf43.435093,\n-9043.90345jkkh" and yields no
match (the string begins with the non-matching prefix "oijf"), while the
substitution on the same string does find and swap the embedded pair. -/
theorem c9_anchored_match_none :
    matchPair "oijf43.435093,\n-9043.90345jkkh".data = none ∧
    subText "oijf43.435093,\n-9043.90345jkkh".data =
      "oijf-9043.90345,\n43.435093jkkh".data := by decide

/-- C10: The multiset of characters of the output equals the multiset of
characters of the input minus zero or more space characters; consequently
the output has exactly as many newline characters as the input and is
never longer than the input. -/
theorem c10_char_conservation (x : List Char) :
    (∃ k, (subText x : Multiset Char) + Multiset.replicate k ' ' =
      (x : Multiset Char)) ∧
    (subText x).count '\n' = x.count '\n' ∧
    (subText x).length ≤ x.length := by
  obtain ⟨k, hk⟩ := subText_multiset x.length x (le_refl _)
  refine ⟨⟨k, hk⟩, ?_, ?_⟩
  · have hc := congrArg (Multiset.count '\n') hk
    simpa [Multiset.count_add, Multiset.count_replicate, Multiset.coe_count]
      using hc
  · have hl := congrArg Multiset.card hk
    simp only [Multiset.card_add, Multiset.card_replicate, Multiset.coe_card] at hl
    omega
